import Mathlib

/-!
Verification of the relay core of `src/servers/relay/src/redis.ts`
(`RedisStreamID`, `RedisService`): a shallow embedding of the service's
operations over an explicit Redis-like state, together with theorems
settling the specification claims about the message cache, the legacy and
notification side channels, the pending-request correlator, the stream
publisher/subscriber and the stream-id comparator.
-/

set_option maxRecDepth 8192

namespace Relay

/-- JavaScript strings are modelled as lists of characters. -/
abbrev Str := List Char

/-- JS `String.prototype.split` with a one-character separator: splits on
every occurrence of the separator, keeping empty segments, and returns at
least one segment (`"".split(c) == [""]`). -/
def splitOnChar (c : Char) : Str → List Str
  | [] => [[]]
  | x :: xs =>
    if x = c then [] :: splitOnChar c xs
    else
      match splitOnChar c xs with
      | [] => [[x]]
      | s :: rest => (x :: s) :: rest

theorem splitOnChar_ne_nil (c : Char) (s : Str) : splitOnChar c s ≠ [] := by
  cases s with
  | nil => simp [splitOnChar]
  | cons x xs =>
    simp only [splitOnChar]
    by_cases h : x = c
    · simp [h]
    · simp only [h, if_false]
      cases splitOnChar c xs <;> simp

/-- A string free of the separator splits into the single segment itself. -/
theorem splitOnChar_of_not_mem {c : Char} {s : Str} (h : c ∉ s) :
    splitOnChar c s = [s] := by
  induction s with
  | nil => rfl
  | cons x xs ih =>
    have hx : x ≠ c := fun hxc => h (hxc ▸ List.mem_cons_self x xs)
    have hxs : c ∉ xs := fun hc => h (List.mem_cons_of_mem x hc)
    simp only [splitOnChar, hx, if_false, ih hxs]

/-- Splitting at the first separator occurrence: a separator-free prefix
becomes the first segment. -/
theorem splitOnChar_append {c : Char} {A : Str} (u : Str) (h : c ∉ A) :
    splitOnChar c (A ++ c :: u) = A :: splitOnChar c u := by
  induction A with
  | nil => simp [splitOnChar]
  | cons a A ih =>
    have ha : a ≠ c := fun hac => h (hac ▸ List.mem_cons_self a A)
    have hA : c ∉ A := fun hc => h (List.mem_cons_of_mem a hc)
    simp only [List.cons_append, splitOnChar, ha, if_false, List.append_eq, ih hA]

/-- Decomposition at the first separator occurrence is unique. -/
theorem eq_of_append_sep_eq {c : Char} :
    ∀ {A B u v : Str}, c ∉ A → c ∉ B → A ++ c :: u = B ++ c :: v →
      A = B ∧ u = v := by
  intro A
  induction A with
  | nil =>
    intro B u v _ hB h
    cases B with
    | nil => simpa using h
    | cons b B =>
      simp only [List.nil_append, List.cons_append, List.cons.injEq] at h
      exact absurd (h.1 ▸ List.mem_cons_self b B) (h.1 ▸ hB)
  | cons a A ih =>
    intro B u v hA hB h
    cases B with
    | nil =>
      simp only [List.cons_append, List.nil_append, List.cons.injEq] at h
      exact absurd (h.1 ▸ List.mem_cons_self a A) (h.1 ▸ hA)
    | cons b B =>
      simp only [List.cons_append, List.cons.injEq] at h
      have hA' : c ∉ A := fun hc => hA (List.mem_cons_of_mem a hc)
      have hB' : c ∉ B := fun hc => hB (List.mem_cons_of_mem b hc)
      obtain ⟨h1, h2⟩ := ih hA' hB' h.2
      exact ⟨by rw [h.1, h1], h2⟩

/-- Unary block encoding of one character, over the two-letter alphabet
`x`/`y`; used to build an injective, colon-free string code. -/
def chEnc (c : Char) : Str := List.replicate c.toNat 'x' ++ ['y']

/-- Injective, colon-free code of a whole string (concatenation of the
per-character unary blocks). -/
def strCode : Str → Str
  | [] => []
  | c :: cs => chEnc c ++ strCode cs

theorem replicate_block_inj {a b : Char} (hab : a ≠ b) :
    ∀ {m n : Nat} {u v : Str},
      List.replicate m a ++ b :: u = List.replicate n a ++ b :: v →
      m = n ∧ u = v := by
  intro m
  induction m with
  | zero =>
    intro n u v h
    cases n with
    | zero => simpa using h
    | succ n =>
      simp only [List.replicate_zero, List.nil_append, List.replicate_succ,
        List.cons_append, List.cons.injEq] at h
      exact absurd h.1 (Ne.symm hab)
  | succ m ih =>
    intro n u v h
    cases n with
    | zero =>
      simp only [List.replicate_zero, List.nil_append, List.replicate_succ,
        List.cons_append, List.cons.injEq] at h
      exact absurd h.1 hab
    | succ n =>
      simp only [List.replicate_succ, List.cons_append, List.cons.injEq] at h
      obtain ⟨h1, h2⟩ := ih h.2
      exact ⟨by rw [h1], h2⟩

theorem strCode_inj : ∀ {s t : Str}, strCode s = strCode t → s = t := by
  intro s
  induction s with
  | nil =>
    intro t h
    cases t with
    | nil => rfl
    | cons c cs =>
      exfalso
      simp only [strCode, chEnc] at h
      have := congrArg List.length h
      simp [List.length_append] at this
      omega
  | cons c cs ih =>
    intro t h
    cases t with
    | nil =>
      exfalso
      simp only [strCode, chEnc] at h
      have := congrArg List.length h
      simp [List.length_append] at this
    | cons d ds =>
      simp only [strCode, chEnc, List.append_assoc, List.singleton_append] at h
      have hxy : 'x' ≠ 'y' := by decide
      obtain ⟨h1, h2⟩ := replicate_block_inj hxy h
      have hc : c = d := by
        have := congrArg Char.ofNat h1
        rwa [Char.ofNat_toNat, Char.ofNat_toNat] at this
      exact hc ▸ congrArg (List.cons c) (ih h2)

theorem colon_not_mem_strCode (s : Str) : ':' ∉ strCode s := by
  induction s with
  | nil => simp [strCode]
  | cons c cs ih =>
    simp only [strCode, List.mem_append, chEnc]
    rintro (h | h)
    · rcases h with h' | h'
      · exact absurd (List.eq_of_mem_replicate h') (by decide)
      · simp at h'
    · exact ih h

/-- `sha256` from `./utils` (not part of the embedded sources).
Modelled from the spec: "`hash` is a deterministic content digest of
`body`" — an injective function from bodies to digests whose output never
contains the `:` separator (as with the hex digests of the source). -/
def sha256 (s : Str) : Str := strCode s

theorem sha256_inj {s t : Str} (h : sha256 s = sha256 t) : s = t :=
  strCode_inj h

theorem colon_not_mem_sha256 (s : Str) : ':' ∉ sha256 s :=
  colon_not_mem_strCode s

/-! ## The Redis-backed state

The relay owns no in-process store: every operation reads or writes the
backing Redis instance.  The relevant Redis value space is modelled per
key: sets (`sAdd`/`sRem`/`sMembers`/scan), lists (`lPush`/`lRange`/`del`),
plain values (`set`/`get`/`del`), streams (`xAdd`/`xRead`) and the key
TTL registry (`expire`). -/

structure RedisState where
  sets : Str → List Str
  lists : Str → List Str
  kv : Str → Option Str
  streams : Str → List Str
  ttls : Str → Option Nat

def updFn {α : Type} (f : Str → α) (k : Str) (v : α) : Str → α :=
  fun q => if q = k then v else f q

def emptyState : RedisState :=
  { sets := fun _ => [], lists := fun _ => [], kv := fun _ => none,
    streams := fun _ => [], ttls := fun _ => none }

/-- Redis `SADD`: set membership semantics, ignoring duplicate inserts. -/
def sAdd (st : RedisState) (key v : Str) : RedisState :=
  { st with
    sets := updFn st.sets key
      (if v ∈ st.sets key then st.sets key else st.sets key ++ [v]) }

/-- Redis `EXPIRE`: (re)sets the key's time-to-live. -/
def expire (st : RedisState) (key : Str) (ttl : Nat) : RedisState :=
  { st with ttls := updFn st.ttls key (some ttl) }

/-- Redis `LPUSH`: prepends at the head of the list. -/
def lPush (st : RedisState) (key v : Str) : RedisState :=
  { st with lists := updFn st.lists key (v :: st.lists key) }

/-- Redis `DEL`: removes the key, whatever its type. -/
def redisDel (st : RedisState) (key : Str) : RedisState :=
  { sets := updFn st.sets key []
    lists := updFn st.lists key []
    kv := updFn st.kv key none
    streams := updFn st.streams key []
    ttls := updFn st.ttls key none }

/-- Redis `SET` on a plain key. -/
def kvSet (st : RedisState) (key v : Str) : RedisState :=
  { st with kv := updFn st.kv key (some v) }

/-- Redis `XADD key *`: appends an entry (here: its `payload` field) at
the tail of the topic's stream, with an auto-assigned id. -/
def xAdd (st : RedisState) (key payload : Str) : RedisState :=
  { st with streams := updFn st.streams key (st.streams key ++ [payload]) }

/-! ## Key layout (§6 of the spec, bit-exact from the source) -/

def msgKey (topic : Str) : Str := "message:".toList ++ topic
def legacyKey (topic : Str) : Str := "legacy:".toList ++ topic
def noteKey (topic : Str) : Str := "notification:".toList ++ topic
def pendingKey (id : Nat) : Str := "pending:".toList ++ Nat.toDigits 10 id

/-- `SIX_HOURS` from `@walletconnect/time`, in seconds. -/
def sixHours : Nat := 21600

/-! ## JSON round trip

`safeJsonStringify` / `safeJsonParse` come from `@walletconnect/safe-json`
(not part of the embedded sources).  Modelled from the spec: stringify is
an injective encoding of a JSON-serializable record into well-formed JSON
text, and parse returns the encoded value for well-formed text while a
string that fails to parse is returned unchanged (raw).  A JSON value is
represented by its serialized text, tagged `val` for well-formed text and
`raw` for a string that failed to parse; well-formed text is marked by a
leading `J` character, which `stringify` always emits and arbitrary
malformed store contents lack. -/

inductive JVal where
  | val : Str → JVal
  | raw : Str → JVal
deriving DecidableEq

def safeJsonParse (s : Str) : JVal :=
  if s.head? = some 'J' then JVal.val s else JVal.raw s

structure LegacySocketMessage where
  topic : Str
  data : Str
deriving DecidableEq

structure Notification where
  topic : Str
  data : Str
deriving DecidableEq

/-- `safeJsonStringify` of a `LegacySocketMessage` (injective; the topic
field is coded colon-free so that the record is uniquely decomposable). -/
def lsmStringify (m : LegacySocketMessage) : Str :=
  'J' :: (strCode m.topic ++ ':' :: m.data)

/-- `safeJsonStringify` of a `Notification`. -/
def noteStringify (n : Notification) : Str :=
  'J' :: (strCode n.topic ++ ':' :: n.data)

/-! ## Envelope codec

`IridiumEncoder` from `./encoder` (not part of the embedded sources).
Modelled from the spec: `encode(body, opts)` produces a payload string
carrying the delivery-hint flags, `decode(payload)` recovers
`(body, opts)`, and `decode (encode body opts) = (body, opts)`. -/

structure IridiumOpts where
  prompt : Bool
deriving DecidableEq

def iridiumEncode (message : Str) (opts : IridiumOpts) : Str :=
  (if opts.prompt then '1' else '0') :: message

def iridiumDecode (payload : Str) : Str × IridiumOpts :=
  match payload with
  | c :: rest => (rest, ⟨c == '1'⟩)
  | [] => ([], ⟨false⟩)

theorem iridium_round_trip (message : Str) (opts : IridiumOpts) :
    iridiumDecode (iridiumEncode message opts) = (message, opts) := by
  cases opts with
  | mk p => cases p <;> simp [iridiumEncode, iridiumDecode]

/-! ## The service operations (translated from `RedisService`) -/

/-- `RedisService.setMessage`. -/
def setMessage (st : RedisState) (topic message : Str) (ttl : Nat) : RedisState :=
  let key := msgKey topic
  let hash := sha256 message
  let v := hash ++ ':' :: message
  expire (sAdd st key v) key ttl

/-- The `MATCH hash:*` scan pattern of the source, as a predicate on set
members: the member starts with the digest followed by the separator (the
digests the code builds patterns from contain no glob metacharacters). -/
def hashMatches (hash m : Str) : Bool := List.isPrefixOf (hash ++ [':']) m

/-- `RedisService.getMessage`: first member of the topic's set matching
`hash:*`, split at `:`, second component; `none` models the `undefined`
not-found sentinel. -/
def getMessage (st : RedisState) (topic hash : Str) : Option Str :=
  match (st.sets (msgKey topic)).find? (fun m => hashMatches hash m) with
  | some m => (splitOnChar ':' m).get? 1
  | none => none

/-- `RedisService.getMessages`: every member, split at `:`, second
component; an element `none` models the `undefined` a member without a
separator produces in the source. -/
def getMessages (st : RedisState) (topic : Str) : List (Option Str) :=
  (st.sets (msgKey topic)).map (fun m => (splitOnChar ':' m).get? 1)

/-- `RedisService.setLegacyCached`. -/
def setLegacyCached (st : RedisState) (m : LegacySocketMessage) : RedisState :=
  expire (lPush st (legacyKey m.topic) (lsmStringify m)) (legacyKey m.topic) sixHours

/-- `RedisService.getLegacyCached`: reads the whole list, parses each
entry, then deletes the key. -/
def getLegacyCached (st : RedisState) (topic : Str) : List JVal × RedisState :=
  let result := st.lists (legacyKey topic)
  let messages := result.map safeJsonParse
  (messages, redisDel st (legacyKey topic))

/-- `RedisService.setNotification`. -/
def setNotification (st : RedisState) (n : Notification) : RedisState :=
  lPush st (noteKey n.topic) (noteStringify n)

/-- `RedisService.getNotification`: reads the whole list and parses each
entry; the method issues no writing command, so the state is returned
unchanged. -/
def getNotification (st : RedisState) (topic : Str) : List JVal × RedisState :=
  let result := st.lists (noteKey topic)
  (result.map safeJsonParse, st)

/-- `RedisService.setPendingRequest`; `maxTTL` is the configured global
maximum time-to-live (`server.config.maxTTL`). -/
def setPendingRequest (st : RedisState) (topic : Str) (id : Nat)
    (message : Str) (maxTTL : Nat) : RedisState :=
  let key := pendingKey id
  let hash := sha256 message
  let v := topic ++ ':' :: hash
  expire (kvSet st key v) key maxTTL

/-- `RedisService.getPendingRequest`: `data ? data : ""` — the stored
value when present and truthy, the empty-string sentinel otherwise. -/
def getPendingRequest (st : RedisState) (id : Nat) : Str :=
  match st.kv (pendingKey id) with
  | some d => if d = [] then [] else d
  | none => []

/-- `RedisService.deletePendingRequest`. -/
def deletePendingRequest (st : RedisState) (id : Nat) : RedisState :=
  redisDel st (pendingKey id)

/-- `RedisService.publish`: encodes the message — with `{prompt: true}`
hardcoded in the source, the `opts` parameter unused — and appends one
entry to the topic's stream. -/
def publish (st : RedisState) (topic message : Str) (opts : IridiumOpts) : RedisState :=
  let payload := iridiumEncode message ⟨true⟩
  xAdd st topic payload

/-! ## The stream subscriber (`RedisService.streamListener`)

The method issues one blocking `XREAD ... BLOCK 0 COUNT 1` on the topic,
extracts the single returned entry's payload (the payload stays `""` when
the backend returns `null`), and, when the payload is non-empty, decodes
it and emits a `(topic, message, prompt)` event; then it returns — there
is no loop in the source.  The execution is modelled as the trace of
backend blocking reads issued and events emitted, as a function of the
read's response (`none` for a `null` response, `some p` for a response
whose single entry carries payload `p`). -/

inductive ListenerAction where
  | xReadBlock : Str → ListenerAction
  | emit : Str → Str → Bool → ListenerAction
deriving DecidableEq

def isReadAction : ListenerAction → Bool
  | ListenerAction.xReadBlock _ => true
  | ListenerAction.emit _ _ _ => false

def streamListener (topic : Str) (response : Option Str) : List ListenerAction :=
  ListenerAction.xReadBlock topic ::
    (let payload := match response with
      | none => ([] : Str)
      | some p => p
     if payload = [] then []
     else
       let d := iridiumDecode payload
       [ListenerAction.emit topic d.1 d.2.prompt])

/-! ## The stream-id comparator (`RedisStreamID`) -/

structure RedisStreamID where
  timestamp : Nat
  sequence : Nat
deriving DecidableEq

/-- `utf8ToNumber` from `@walletconnect/encoding` (not part of the
embedded sources).  Modelled from the spec: parses a string of decimal
digits into the number it denotes. -/
def utf8ToNumber (s : Str) : Nat :=
  s.foldl (fun a c => a * 10 + (c.toNat - 48)) 0

/-- The `RedisStreamID` constructor: splits `"{timestamp}-{sequence}"` at
`-` and parses the two parts. -/
def parseStreamID (value : Str) : RedisStreamID :=
  let parts := splitOnChar '-' value
  { timestamp := utf8ToNumber (parts.headD [])
    sequence := utf8ToNumber (parts.getD 1 []) }

/-- `RedisStreamID.isHigher`, clause for clause from the source:
two independent strict comparisons, each returning `true` on its own. -/
def isHigher (a b : RedisStreamID) : Bool :=
  if a.timestamp > b.timestamp then true
  else if a.sequence > b.sequence then true
  else false

/-! ## Reachable message-cache and legacy-queue states -/

/-- The state produced by a sequence of `setMessage` calls
`(topic, message, ttl)`, starting from the empty store. -/
def buildMsgs (ops : List (Str × Str × Nat)) : RedisState :=
  ops.foldl (fun st o => setMessage st o.1 o.2.1 o.2.2) emptyState

/-- The state produced by a sequence of `setLegacyCached` calls, starting
from the empty store. -/
def buildLegacy (ms : List LegacySocketMessage) : RedisState :=
  ms.foldl setLegacyCached emptyState

theorem msgKey_inj {a b : Str} (h : msgKey a = msgKey b) : a = b :=
  List.append_cancel_left h

theorem legacyKey_inj {a b : Str} (h : legacyKey a = legacyKey b) : a = b :=
  List.append_cancel_left h

/-- A member of a matched scan starts with the digest and the separator:
over well-formed members this pins the digest exactly. -/
theorem hashMatches_wf {h b : Str} (hh : ':' ∉ h) :
    hashMatches h (sha256 b ++ ':' :: b) = true ↔ h = sha256 b := by
  unfold hashMatches
  rw [List.isPrefixOf_iff_prefix]
  constructor
  · rintro ⟨t, ht⟩
    rw [List.append_assoc, List.singleton_append] at ht
    exact (eq_of_append_sep_eq hh (colon_not_mem_sha256 b) ht).1
  · rintro rfl
    exact ⟨b, by simp⟩

theorem split_wf_member {H b : Str} (hH : ':' ∉ H) (hb : ':' ∉ b) :
    (splitOnChar ':' (H ++ ':' :: b)).get? 1 = some b := by
  rw [splitOnChar_append b hH, splitOnChar_of_not_mem hb]
  rfl

theorem headD_split_wf_member {H b : Str} (hH : ':' ∉ H) :
    (splitOnChar ':' (H ++ ':' :: b)).headD [] = H := by
  rw [splitOnChar_append b hH]
  rfl

/-- Every member a sequence of `setMessage` calls leaves under
`message:{t}` is the well-formed encoding `digest(b):b` of some body `b`
published to `t` in the sequence (or was already there). -/
theorem foldl_setMessage_mem :
    ∀ (ops : List (Str × Str × Nat)) (st : RedisState) (t m : Str),
      m ∈ ((ops.foldl (fun s o => setMessage s o.1 o.2.1 o.2.2) st).sets (msgKey t)) →
      m ∈ st.sets (msgKey t) ∨
        ∃ b ttl, (t, b, ttl) ∈ ops ∧ m = sha256 b ++ ':' :: b := by
  intro ops
  induction ops with
  | nil => exact fun st t m h => Or.inl h
  | cons o ops ih =>
    intro st t m h
    rcases o with ⟨tp, bo, tto⟩
    simp only [List.foldl_cons] at h
    rcases ih _ t m h with h1 | ⟨b, ttl, hmem, heq⟩
    · simp only [setMessage, expire, sAdd, updFn] at h1
      by_cases hkey : msgKey t = msgKey tp
      · rw [if_pos hkey] at h1
        have htt : t = tp := msgKey_inj hkey
        by_cases hin : sha256 bo ++ ':' :: bo ∈ st.sets (msgKey tp)
        · rw [if_pos hin] at h1
          exact Or.inl (hkey ▸ h1)
        · rw [if_neg hin] at h1
          rcases List.mem_append.mp h1 with h2 | h2
          · exact Or.inl (hkey ▸ h2)
          · refine Or.inr ⟨bo, tto, ?_, by simpa using h2⟩
            rw [htt]
            exact List.mem_cons_self _ _
      · rw [if_neg hkey] at h1
        exact Or.inl h1
    · exact Or.inr ⟨b, ttl, List.mem_cons_of_mem _ hmem, heq⟩

/-- `SADD` set semantics keep every stored set duplicate-free. -/
theorem foldl_setMessage_nodup :
    ∀ (ops : List (Str × Str × Nat)) (st : RedisState),
      (∀ k, (st.sets k).Nodup) →
      ∀ k, ((ops.foldl (fun s o => setMessage s o.1 o.2.1 o.2.2) st).sets k).Nodup := by
  intro ops
  induction ops with
  | nil => exact fun st h => h
  | cons o ops ih =>
    intro st hst
    simp only [List.foldl_cons]
    refine ih _ ?_
    intro k
    rcases o with ⟨tp, bo, tto⟩
    simp only [setMessage, expire, sAdd, updFn]
    by_cases hkey : k = msgKey tp
    · rw [if_pos hkey]
      by_cases hin : sha256 bo ++ ':' :: bo ∈ st.sets (msgKey tp)
      · rw [if_pos hin]; exact hst _
      · rw [if_neg hin]
        refine List.nodup_append.mpr ⟨hst _, List.nodup_singleton _, ?_⟩
        intro a ha hav
        simp only [List.mem_singleton] at hav
        exact hin (hav ▸ ha)
    · rw [if_neg hkey]; exact hst k

theorem buildMsgs_mem {ops : List (Str × Str × Nat)} {t m : Str}
    (h : m ∈ (buildMsgs ops).sets (msgKey t)) :
    ∃ b ttl, (t, b, ttl) ∈ ops ∧ m = sha256 b ++ ':' :: b := by
  rcases foldl_setMessage_mem ops emptyState t m h with h1 | h1
  · simp [emptyState] at h1
  · exact h1

theorem buildMsgs_nodup (ops : List (Str × Str × Nat)) (k : Str) :
    ((buildMsgs ops).sets k).Nodup :=
  foldl_setMessage_nodup ops emptyState (fun _ => List.nodup_nil) k

/-- The freshly inserted member is present after `setMessage`. -/
theorem setMessage_mem_self (st : RedisState) (t b : Str) (ttl : Nat) :
    sha256 b ++ ':' :: b ∈ (setMessage st t b ttl).sets (msgKey t) := by
  simp only [setMessage, expire, sAdd, updFn, if_pos rfl]
  by_cases hin : sha256 b ++ ':' :: b ∈ st.sets (msgKey t)
  · rw [if_pos hin]; exact hin
  · rw [if_neg hin]; exact List.mem_append.mpr (Or.inr (List.mem_singleton.mpr rfl))

/-- Members not touching the inserted key, and old members, persist;
conversely membership after `setMessage` comes from before or is the new
member. -/
theorem setMessage_mem_cases {st : RedisState} {t b m : Str} {ttl : Nat}
    (h : m ∈ (setMessage st t b ttl).sets (msgKey t)) :
    m ∈ st.sets (msgKey t) ∨ m = sha256 b ++ ':' :: b := by
  simp only [setMessage, expire, sAdd, updFn, if_pos rfl] at h
  by_cases hin : sha256 b ++ ':' :: b ∈ st.sets (msgKey t)
  · rw [if_pos hin] at h; exact Or.inl h
  · rw [if_neg hin] at h
    rcases List.mem_append.mp h with h2 | h2
    · exact Or.inl h2
    · exact Or.inr (by simpa using h2)

theorem find?_eq_of_unique {α : Type} {p : α → Bool} {v : α} :
    ∀ {l : List α}, v ∈ l → p v = true → (∀ m ∈ l, p m = true → m = v) →
      l.find? p = some v := by
  intro l
  induction l with
  | nil => intro hv; cases hv
  | cons a l ih =>
    intro hv hpv huniq
    by_cases hpa : p a = true
    · rw [List.find?_cons_of_pos _ hpa, huniq a (List.mem_cons_self a l) hpa]
    · have hv' : v ∈ l := by
        rcases List.mem_cons.mp hv with h | h
        · exact absurd (h ▸ hpv) (by simpa using hpa)
        · exact h
      rw [List.find?_cons_of_neg _ (by simpa using hpa)]
      exact ih hv' hpv (fun m hm => huniq m (List.mem_cons_of_mem a hm))

theorem countP_eq_one_of_unique {α : Type} {p : α → Bool} {v : α} :
    ∀ {l : List α}, l.Nodup → v ∈ l → p v = true →
      (∀ m ∈ l, p m = true → m = v) → l.countP p = 1 := by
  intro l
  induction l with
  | nil => intro _ hv; cases hv
  | cons a l ih =>
    intro hnd hv hpv huniq
    rw [List.nodup_cons] at hnd
    by_cases hpa : p a = true
    · have hav : a = v := huniq a (List.mem_cons_self a l) hpa
      have hzero : l.countP p = 0 := by
        rw [List.countP_eq_zero]
        intro m hm hpm
        have hmv : m = v := huniq m (List.mem_cons_of_mem a hm) hpm
        exact hnd.1 ((hav.trans hmv.symm) ▸ hm)
      simp [List.countP_cons, hpa, hzero]
    · have hv' : v ∈ l := by
        rcases List.mem_cons.mp hv with h | h
        · exact absurd (h ▸ hpv) (by simpa using hpa)
        · exact h
      simp only [List.countP_cons, hpa, if_false, Nat.add_zero]
      exact ih hnd.2 hv' hpv (fun m hm => huniq m (List.mem_cons_of_mem a hm))

theorem updFn_idem {α : Type} (f : Str → α) (k : Str) (v : α) :
    updFn (updFn f k v) k v = updFn f k v := by
  funext q
  unfold updFn
  by_cases h : q = k <;> simp [h]

/-- C3 fails as stated: for the body `"a:b"` (which contains the member
separator `:`), `getMessage` after `setMessage` returns only `"a"` — the
member is split at every colon and only the segment between the first two
colons is returned, truncating bodies that contain `:`. -/
theorem claim_C3_counterexample :
    getMessage (setMessage emptyState "t".toList "a:b".toList 60) "t".toList
        (sha256 "a:b".toList) = some "a".toList ∧
    "a".toList ≠ "a:b".toList := by
  exact ⟨by decide, by decide⟩

/-- C3 (amended): over states reachable by `setMessage` calls, after
`setMessage(topic, body, ttl)` a `getMessage(topic, digest(body))` returns
the original body provided `body` contains no `:` (in general only the
part of the body before its first `:` is returned), and `getMessage` for a
digest matching no stored body returns the `undefined` sentinel. -/
theorem claim_C3_get_message_round_trip (ops : List (Str × Str × Nat))
    (topic body h : Str) (ttl : Nat) :
    ((':' ∉ body) →
      getMessage (setMessage (buildMsgs ops) topic body ttl) topic (sha256 body)
        = some body) ∧
    ((':' ∉ h) → (∀ o ∈ ops, o.1 = topic → sha256 o.2.1 ≠ h) →
      getMessage (buildMsgs ops) topic h = none) := by
  constructor
  · intro hbody
    have hself := setMessage_mem_self (buildMsgs ops) topic body ttl
    have hfind :
        ((setMessage (buildMsgs ops) topic body ttl).sets (msgKey topic)).find?
            (fun m => hashMatches (sha256 body) m)
          = some (sha256 body ++ ':' :: body) := by
      refine find?_eq_of_unique hself ?_ ?_
      · exact (hashMatches_wf (colon_not_mem_sha256 body)).mpr rfl
      · intro m hm hpm
        rcases setMessage_mem_cases hm with hold | hnew
        · obtain ⟨b, ttl', _, rfl⟩ := buildMsgs_mem hold
          have : sha256 body = sha256 b :=
            (hashMatches_wf (colon_not_mem_sha256 body)).mp hpm
          rw [sha256_inj this.symm]
        · exact hnew
    unfold getMessage
    rw [hfind]
    exact split_wf_member (colon_not_mem_sha256 body) hbody
  · intro hh hops
    have hfind :
        ((buildMsgs ops).sets (msgKey topic)).find?
            (fun m => hashMatches h m) = none := by
      rw [List.find?_eq_none]
      intro m hm hpm
      obtain ⟨b, ttl', hob, rfl⟩ := buildMsgs_mem hm
      exact hops (topic, b, ttl') hob rfl ((hashMatches_wf hh).mp hpm).symm
    unfold getMessage
    rw [hfind]

theorem claim_C3_witness :
    getMessage (setMessage (buildMsgs []) "t".toList "b".toList 60) "t".toList
        (sha256 "b".toList) = some "b".toList ∧
    getMessage (buildMsgs []) "t".toList "q".toList = none :=
  ⟨(claim_C3_get_message_round_trip [] "t".toList "b".toList "q".toList 60).1
      (by decide),
   (claim_C3_get_message_round_trip [] "t".toList "b".toList "q".toList 60).2
      (by decide) (by simp)⟩

/-- C4: calling `setMessage(T, B, ttl)` twice leaves exactly one stored
member matching `digest(B):*` in `T`'s message set, and over any state
reachable by `setMessage` calls two members of a topic's set with the same
hash component (segment before the first `:`) are equal. -/
theorem claim_C4_dedup (ops : List (Str × Str × Nat)) (T B : Str) (t1 t2 : Nat) :
    (((setMessage (setMessage (buildMsgs ops) T B t1) T B t2).sets
          (msgKey T)).countP (fun m => hashMatches (sha256 B) m) = 1) ∧
    (∀ m1 m2, m1 ∈ (buildMsgs ops).sets (msgKey T) →
        m2 ∈ (buildMsgs ops).sets (msgKey T) →
        (splitOnChar ':' m1).headD [] = (splitOnChar ':' m2).headD [] →
        m1 = m2) := by
  constructor
  · have hform :
        setMessage (setMessage (buildMsgs ops) T B t1) T B t2
          = buildMsgs (ops ++ [(T, B, t1), (T, B, t2)]) := by
      unfold buildMsgs
      rw [List.foldl_append]
      rfl
    rw [hform]
    have hself :
        sha256 B ++ ':' :: B ∈ (buildMsgs (ops ++ [(T, B, t1), (T, B, t2)])).sets
          (msgKey T) := by
      rw [← hform]
      exact setMessage_mem_self _ T B t2
    refine countP_eq_one_of_unique (buildMsgs_nodup _ _) hself
      ((hashMatches_wf (colon_not_mem_sha256 B)).mpr rfl) ?_
    intro m hm hpm
    obtain ⟨b, ttl', _, rfl⟩ := buildMsgs_mem hm
    have : sha256 B = sha256 b := (hashMatches_wf (colon_not_mem_sha256 B)).mp hpm
    rw [sha256_inj this.symm]
  · intro m1 m2 h1 h2 hcomp
    obtain ⟨b1, ttl1, _, rfl⟩ := buildMsgs_mem h1
    obtain ⟨b2, ttl2, _, rfl⟩ := buildMsgs_mem h2
    rw [headD_split_wf_member (colon_not_mem_sha256 b1),
      headD_split_wf_member (colon_not_mem_sha256 b2)] at hcomp
    rw [sha256_inj hcomp]

theorem claim_C4_witness :
    sha256 "b".toList ++ ':' :: "b".toList
      = sha256 "b".toList ++ ':' :: "b".toList :=
  (claim_C4_dedup [("t".toList, "b".toList, 5)] "t".toList "b".toList 6 7).2
    (sha256 "b".toList ++ ':' :: "b".toList)
    (sha256 "b".toList ++ ':' :: "b".toList)
    (by decide) (by decide) rfl

theorem lsmStringify_inj : Function.Injective lsmStringify := by
  intro m1 m2 h
  simp only [lsmStringify, List.cons.injEq, true_and] at h
  obtain ⟨h1, h2⟩ := eq_of_append_sep_eq (colon_not_mem_strCode m1.topic)
    (colon_not_mem_strCode m2.topic) h
  cases m1
  cases m2
  simp only [LegacySocketMessage.mk.injEq]
  exact ⟨strCode_inj h1, h2⟩

theorem parse_lsmStringify (m : LegacySocketMessage) :
    safeJsonParse (lsmStringify m) = JVal.val (lsmStringify m) := rfl

theorem parse_lsmStringify_inj :
    Function.Injective (fun m => safeJsonParse (lsmStringify m)) := by
  intro m1 m2 h
  simp only [parse_lsmStringify, JVal.val.injEq] at h
  exact lsmStringify_inj h

/-- The legacy list a sequence of `setLegacyCached` calls leaves under
`legacy:{T}`: the pushed encodings of the messages addressed to `T`, most
recent first (pushes occur at the head). -/
theorem foldl_setLegacyCached_lists :
    ∀ (ms : List LegacySocketMessage) (st : RedisState) (T : Str),
      ((ms.foldl setLegacyCached st).lists (legacyKey T))
        = ((ms.filter (fun m => m.topic == T)).reverse.map lsmStringify)
            ++ st.lists (legacyKey T) := by
  intro ms
  induction ms with
  | nil => intro st T; simp
  | cons m ms ih =>
    intro st T
    simp only [List.foldl_cons]
    rw [ih]
    by_cases hm : m.topic = T
    · have hkey : legacyKey T = legacyKey m.topic := by rw [hm]
      have hlist : (setLegacyCached st m).lists (legacyKey T)
          = lsmStringify m :: st.lists (legacyKey T) := by
        simp only [setLegacyCached, expire, lPush, updFn, if_pos hkey]
        rw [hkey]
      rw [hlist, List.filter_cons_of_pos (by simpa using hm), List.reverse_cons,
        List.map_append]
      simp
    · have hkey : legacyKey T ≠ legacyKey m.topic := fun hk => hm (legacyKey_inj hk).symm
      have hlist : (setLegacyCached st m).lists (legacyKey T)
          = st.lists (legacyKey T) := by
        simp only [setLegacyCached, expire, lPush, updFn, if_neg hkey]
      rw [hlist, List.filter_cons_of_neg (by simpa using hm)]

/-- C5: pushing a finite sequence of legacy messages to topic `T` and then
calling `getLegacyCached(T)` once returns every pushed message exactly
once (in reverse push order); the read deletes the whole list, so an
immediately following second call returns the empty list. -/
theorem claim_C5_legacy_drain (ms : List LegacySocketMessage) (T : Str)
    (hT : ∀ m ∈ ms, m.topic = T) :
    ((getLegacyCached (buildLegacy ms) T).1
        = ms.reverse.map (fun m => safeJsonParse (lsmStringify m))) ∧
    (∀ m : LegacySocketMessage,
        (getLegacyCached (buildLegacy ms) T).1.count
            (safeJsonParse (lsmStringify m)) = ms.count m) ∧
    ((getLegacyCached (buildLegacy ms) T).2.lists (legacyKey T) = []) ∧
    ((getLegacyCached ((getLegacyCached (buildLegacy ms) T).2) T).1 = []) := by
  have hfilter : ms.filter (fun m => m.topic == T) = ms :=
    List.filter_eq_self.mpr (fun m hm => by simpa using hT m hm)
  have hlists : (buildLegacy ms).lists (legacyKey T)
      = ms.reverse.map lsmStringify := by
    unfold buildLegacy
    rw [foldl_setLegacyCached_lists ms emptyState T, hfilter]
    simp [emptyState]
  have h1 : (getLegacyCached (buildLegacy ms) T).1
      = ms.reverse.map (fun m => safeJsonParse (lsmStringify m)) := by
    simp only [getLegacyCached, hlists, List.map_map]
    rfl
  have h3 : (getLegacyCached (buildLegacy ms) T).2.lists (legacyKey T) = [] := by
    simp [getLegacyCached, redisDel, updFn]
  refine ⟨h1, ?_, h3, ?_⟩
  · intro m
    rw [h1, List.count_map_of_injective _ _ parse_lsmStringify_inj,
      List.count_reverse]
  · have h3' : (redisDel (buildLegacy ms) (legacyKey T)).lists (legacyKey T)
        = [] := h3
    simp [getLegacyCached, h3']

theorem claim_C5_witness :
    (getLegacyCached
        (buildLegacy [⟨"t".toList, "a".toList⟩, ⟨"t".toList, "c".toList⟩])
        "t".toList).1
      = ([⟨"t".toList, "a".toList⟩,
          (⟨"t".toList, "c".toList⟩ : LegacySocketMessage)]).reverse.map
          (fun m => safeJsonParse (lsmStringify m)) :=
  (claim_C5_legacy_drain
      [⟨"t".toList, "a".toList⟩, ⟨"t".toList, "c".toList⟩]
      "t".toList (by decide)).1

/-- A state holding one malformed legacy record (it does not parse) ahead
of one well-formed record, under topic `t`. -/
def badLegacyState : RedisState :=
  lPush (lPush emptyState (legacyKey "t".toList)
      (lsmStringify ⟨"t".toList, "ok".toList⟩))
    (legacyKey "t".toList) "oops".toList

/-- C6 fails as stated: a stored record that fails to parse is not
omitted from the returned batch — `getLegacyCached` returns it, as the raw
string, alongside the well-formed record. -/
theorem claim_C6_counterexample :
    (getLegacyCached badLegacyState "t".toList).1
        = [JVal.raw "oops".toList,
           JVal.val (lsmStringify ⟨"t".toList, "ok".toList⟩)] ∧
    JVal.raw "oops".toList ∈ (getLegacyCached badLegacyState "t".toList).1 := by
  exact ⟨by decide, by decide⟩

/-- C6 (amended): batch reads never raise and process every stored record
independently — the result has exactly one entry per stored record, each
entry being that record's own parse result — so a malformed record does
not prevent the remaining well-formed records from being returned; but it
is not omitted: it appears in the output, as the raw string for the list
reads and as the `undefined` sentinel for `getMessages`. -/
theorem claim_C6_malformed_not_skipped (st : RedisState) (topic : Str) (i : Nat) :
    ((getLegacyCached st topic).1.length = (st.lists (legacyKey topic)).length ∧
     (getNotification st topic).1.length = (st.lists (noteKey topic)).length ∧
     (getMessages st topic).length = (st.sets (msgKey topic)).length) ∧
    (∀ e, (st.lists (legacyKey topic))[i]? = some e →
        (getLegacyCached st topic).1[i]? = some (safeJsonParse e)) ∧
    (∀ e, (st.lists (noteKey topic))[i]? = some e →
        (getNotification st topic).1[i]? = some (safeJsonParse e)) ∧
    (∀ e, (st.sets (msgKey topic))[i]? = some e →
        (getMessages st topic)[i]? = some ((splitOnChar ':' e).get? 1)) ∧
    (∀ e, (st.lists (legacyKey topic))[i]? = some e → e.head? ≠ some 'J' →
        (getLegacyCached st topic).1[i]? = some (JVal.raw e)) := by
  refine ⟨⟨by simp [getLegacyCached], by simp [getNotification],
    by simp [getMessages]⟩, ?_, ?_, ?_, ?_⟩
  · intro e he
    simp [getLegacyCached, List.getElem?_map, he]
  · intro e he
    simp [getNotification, List.getElem?_map, he]
  · intro e he
    simp [getMessages, List.getElem?_map, he]
  · intro e he hbad
    have : safeJsonParse e = JVal.raw e := by
      unfold safeJsonParse
      rw [if_neg hbad]
    simp [getLegacyCached, List.getElem?_map, he, this]

theorem claim_C6_witness :
    (getLegacyCached badLegacyState "t".toList).1[0]?
      = some (JVal.raw "oops".toList) :=
  (claim_C6_malformed_not_skipped badLegacyState "t".toList 0).2.2.2.2
    "oops".toList (by decide) (by decide)

/-- C2: `isHigher` is the literal two-clause OR of the source — true iff
the timestamp is strictly greater or the sequence is strictly greater; in
particular it is false on equal timestamp with lower sequence, and true on
lower timestamp with higher sequence. -/
theorem claim_C2_isHigher_two_clause_or (a b : RedisStreamID) :
    (isHigher a b = true ↔ (b.timestamp < a.timestamp ∨ b.sequence < a.sequence)) ∧
    (a.timestamp = b.timestamp → a.sequence < b.sequence → isHigher a b = false) ∧
    (a.timestamp < b.timestamp → b.sequence < a.sequence → isHigher a b = true) := by
  refine ⟨?_, ?_, ?_⟩
  · by_cases h1 : b.timestamp < a.timestamp <;>
      by_cases h2 : b.sequence < a.sequence <;>
        simp [isHigher, gt_iff_lt, h1, h2]
  · intro he hs
    have h1 : ¬ b.timestamp < a.timestamp := by omega
    have h2 : ¬ b.sequence < a.sequence := by omega
    simp [isHigher, gt_iff_lt, h1, h2]
  · intro ht hs
    unfold isHigher
    by_cases h1 : a.timestamp > b.timestamp
    · simp [h1]
    · simp [h1, gt_iff_lt, hs]

theorem claim_C2_witness :
    isHigher ⟨1, 1⟩ ⟨1, 2⟩ = false ∧ isHigher ⟨1, 2⟩ ⟨2, 1⟩ = true :=
  ⟨(claim_C2_isHigher_two_clause_or ⟨1, 1⟩ ⟨1, 2⟩).2.1 rfl (by decide),
   (claim_C2_isHigher_two_clause_or ⟨1, 2⟩ ⟨2, 1⟩).2.2 (by decide) (by decide)⟩

/-- C10: `isHigher` is not asymmetric — `"2-1"` and `"1-2"` are each
higher than the other — and it is irreflexive. -/
theorem claim_C10_isHigher_not_asymmetric :
    isHigher (parseStreamID "2-1".toList) (parseStreamID "1-2".toList) = true ∧
    isHigher (parseStreamID "1-2".toList) (parseStreamID "2-1".toList) = true ∧
    ∀ a : RedisStreamID, isHigher a a = false :=
  ⟨by decide, by decide, fun a => by simp [isHigher]⟩

/-- C1 fails as stated: at `opts = {prompt := false}` the entry `publish`
appends decodes to a `prompt` flag of `true`, not to `opts.prompt` — the
source hardcodes `{prompt: true}` and ignores `opts`. -/
theorem claim_C1_counterexample :
    (iridiumDecode
        (((publish emptyState "t".toList "b".toList ⟨false⟩).streams
            "t".toList).headD [])).2.prompt
      ≠ (IridiumOpts.mk false).prompt := by decide

/-- C1 (amended): `publish(topic, body, opts)` ignores `opts` and encodes
`body` with the prompt flag hardcoded to `true`; it appends exactly that
one encoded envelope to the topic's log and changes nothing else. -/
theorem claim_C1_publish_appends_encoded (st : RedisState)
    (topic message : Str) (opts : IridiumOpts) :
    (publish st topic message opts).streams topic
        = st.streams topic ++ [iridiumEncode message ⟨true⟩] ∧
    (iridiumDecode (iridiumEncode message ⟨true⟩)).2.prompt = true ∧
    (∀ k, k ≠ topic → (publish st topic message opts).streams k = st.streams k) ∧
    (publish st topic message opts).sets = st.sets ∧
    (publish st topic message opts).lists = st.lists ∧
    (publish st topic message opts).kv = st.kv ∧
    (publish st topic message opts).ttls = st.ttls := by
  refine ⟨?_, rfl, ?_, rfl, rfl, rfl, rfl⟩
  · simp [publish, xAdd, updFn]
  · intro k hk
    simp [publish, xAdd, updFn, hk]

theorem claim_C1_witness :
    (publish emptyState "t".toList "b".toList ⟨false⟩).streams "u".toList
      = emptyState.streams "u".toList :=
  (claim_C1_publish_appends_encoded emptyState "t".toList "b".toList ⟨false⟩).2.2.1
    "u".toList (by decide)

/-- C7: the pending correlator round trip — after `setPendingRequest` the
stored value read back is `topic ++ ":" ++ digest(message)`; after
`deletePendingRequest` the read returns the empty-string sentinel; and
deletion is idempotent (deleting an absent id changes nothing further). -/
theorem claim_C7_pending_round_trip (st : RedisState) (topic : Str)
    (id : Nat) (message : Str) (mttl : Nat) :
    getPendingRequest (setPendingRequest st topic id message mttl) id
        = topic ++ ':' :: sha256 message ∧
    getPendingRequest (deletePendingRequest st id) id = [] ∧
    deletePendingRequest (deletePendingRequest st id) id
        = deletePendingRequest st id := by
  refine ⟨?_, ?_, ?_⟩
  · have hne : topic ++ ':' :: sha256 message ≠ [] := by simp
    simp [getPendingRequest, setPendingRequest, expire, kvSet, updFn, hne]
  · simp [getPendingRequest, deletePendingRequest, redisDel, updFn]
  · simp [deletePendingRequest, redisDel, updFn_idem]

/-- C8: `getNotification` is a pure read — it returns the state unchanged
(no stored state of any kind is modified), so two consecutive reads with
no intervening push return the same list. -/
theorem claim_C8_getNotification_nondestructive (st : RedisState) (topic : Str) :
    (getNotification st topic).2 = st ∧
    (getNotification ((getNotification st topic).2) topic).1
        = (getNotification st topic).1 :=
  ⟨rfl, rfl⟩

/-- C9 fails as stated: on a response carrying payload `"1m"` the listener
trace is one blocking read followed by one emit and then termination — it
never issues a second blocking read, so it does not loop. -/
theorem claim_C9_counterexample :
    streamListener "t".toList (some ('1' :: 'm' :: []))
        = [ListenerAction.xReadBlock "t".toList,
           ListenerAction.emit "t".toList ('m' :: []) true] ∧
    ¬ 2 ≤ (streamListener "t".toList (some ('1' :: 'm' :: []))).countP
            isReadAction := by
  exact ⟨by decide, by decide⟩

/-- C9 (amended): each `streamListener` invocation issues exactly one
blocking read, first; a non-empty payload produces exactly one decoded
emit and an absent or empty payload produces none (spurious wake); in
both cases the invocation then terminates without issuing another read —
the subscriber does not loop. -/
theorem claim_C9_listener_single_read (topic : Str) (response : Option Str) :
    ((streamListener topic response).countP isReadAction = 1) ∧
    ((streamListener topic response).head?
        = some (ListenerAction.xReadBlock topic)) ∧
    (∀ p, response = some p → p ≠ [] →
        streamListener topic response
          = [ListenerAction.xReadBlock topic,
             ListenerAction.emit topic (iridiumDecode p).1
               (iridiumDecode p).2.prompt]) ∧
    ((response = none ∨ response = some []) →
        streamListener topic response = [ListenerAction.xReadBlock topic]) := by
  refine ⟨?_, ?_, ?_, ?_⟩
  · cases response with
    | none => simp [streamListener, isReadAction, List.countP_cons, List.countP_nil]
    | some p =>
      by_cases hp : p = [] <;>
        simp [streamListener, isReadAction, hp, List.countP_cons, List.countP_nil]
  · cases response <;> simp [streamListener]
  · intro p hp hne
    subst hp
    simp [streamListener, hne]
  · rintro (h | h) <;> subst h <;> simp [streamListener]

theorem claim_C9_witness :
    streamListener "s".toList (some ('0' :: 'a' :: []))
      = [ListenerAction.xReadBlock "s".toList,
         ListenerAction.emit "s".toList (iridiumDecode ('0' :: 'a' :: [])).1
           (iridiumDecode ('0' :: 'a' :: [])).2.prompt] :=
  (claim_C9_listener_single_read "s".toList (some ('0' :: 'a' :: []))).2.2.1
    ('0' :: 'a' :: []) rfl (by decide)

end Relay
